import Mathlib

/-!
Shallow embedding of the audio-to-visual mapping core of
`src/neo_sonification_visualizer_react_three.jsx`.

JavaScript numbers are modelled as exact rationals (`ℚ`); the special
value `NaN` and absent (`undefined`/`null`) data are modelled explicitly
where the code can produce or consume them.  Unsigned 32-bit wraparound
is modelled with `% 2 ^ 32` on `Nat`.
-/

namespace NeoSon

/-! ### `hashStr` (source lines 155-159)

`hashStr` is FNV-1a over the string's UTF-16 code units: `h` starts at
the offset basis `2166136261`, each character code is XORed in and the
result multiplied by the prime `16777619` with 32-bit wraparound
(`Math.imul` followed by `>>> 0`).  Characters are modelled by their
Unicode code point, which coincides with the single UTF-16 code unit for
all strings appearing in NEO names. -/

def hashStr (s : String) : Nat :=
  s.data.foldl (fun h c => ((h ^^^ c.toNat) * 16777619) % 2 ^ 32) 2166136261

/-- Modelled from the spec's words for comparison with `hashStr` (C7):
"starting from offset basis 2166136261, for each character XOR the
character code then multiply by the prime 16777619, with the result
masked to unsigned 32-bit at each step", written as explicit recursion
over the character-code list. -/
def fnv1aSpecAux : Nat → List Nat → Nat
  | h, [] => h
  | h, c :: cs => fnv1aSpecAux (((h ^^^ c) * 16777619) % 2 ^ 32) cs

/-- Spec-side FNV-1a of a string: the recursion above over its character
codes. -/
def fnv1aSpec (s : String) : Nat :=
  fnv1aSpecAux 2166136261 (s.data.map Char.toNat)

/-! ### `getSpectrum` (source lines 89-103)

The analyser's byte-frequency snapshot `src` (each entry in `0..255`) is
grouped into `bands` buckets of width `bin = max 1 ⌊L / bands⌋`; bucket
`b` covers indices `[b*bin, min L (b*bin + bin))` and reports the mean
of its entries divided by 255 (0 when the bucket is empty). -/

def getSpectrum (src : List ℚ) (bands : Nat) : List ℚ :=
  let L := src.length
  let bin := max 1 (L / bands)
  (List.range bands).map (fun b =>
    let s := b * bin
    let e := min L (s + bin)
    let grp := (src.drop s).take (e - s)
    if grp.length = 0 then 0 else grp.sum / (grp.length : ℚ) / 255)

/-- Modelled from the spec's words for comparison with `getSpectrum`
(C2): groups of width `⌊L / bands⌋` with "the last group absorbing any
remainder", each averaged and normalized. -/
def specSpectrumAbsorb (src : List ℚ) (bands : Nat) : List ℚ :=
  let L := src.length
  let w := L / bands
  (List.range bands).map (fun b =>
    let s := b * w
    let e := if b = bands - 1 then L else s + w
    let grp := (src.drop s).take (e - s)
    if grp.length = 0 then 0 else grp.sum / (grp.length : ℚ) / 255)

/-- Spec-style description (amended claim C2) of one band entry as a
mean over an index interval: band `b` averages the bins of the
contiguous interval `[b*bin, min L (b*bin + bin))` with
`bin = max 1 ⌊L / bands⌋`, normalized by 255, and reads 0 when that
interval is empty. -/
def specMeanBand (src : List ℚ) (bands b : Nat) : ℚ :=
  let L := src.length
  let bin := max 1 (L / bands)
  let s := b * bin
  let e := min L (s + bin)
  if e ≤ s then 0
  else (∑ i in Finset.Ico s e, src.getD i 0) / ((e - s : Nat) : ℚ) / 255

/-- A 10-bin snapshot whose only energy sits in the last bin: with 3
bands and `bin = 3`, index 9 falls outside every group. -/
def src10 : List ℚ := [0, 0, 0, 0, 0, 0, 0, 0, 0, 255]

/-! ### `mapNEO` (source lines 121-133)

A JavaScript datum that the mapper feeds to `Number(...)` is either
absent (`undefined`/`null`), a finite number, the number `NaN`, or a
string (carried together with its numeric parse, `none` when the string
is not numeric).  `toNumber` returns `none` exactly when `Number(...)`
yields `NaN`. -/

inductive JVal where
  | missing : JVal
  | num : ℚ → JVal
  | nan : JVal
  | str : Option ℚ → JVal
deriving DecidableEq, Repr

/-- `Number(v)` on a modelled datum; `none` is `NaN`. -/
def toNumber : JVal → Option ℚ
  | .missing => none
  | .num q => some q
  | .nan => none
  | .str p => p

/-- `a ?? b`: the nullish-coalescing operator, keeping `a` unless it is
absent. -/
def coalesce (a b : JVal) : JVal :=
  match a with
  | .missing => b
  | x => x

/-- `Number(x) || d`: substitute `d` when the number is `NaN` or `0`
(the falsy numbers that can arise here). -/
def jsOrNum (x : Option ℚ) (d : ℚ) : ℚ :=
  match x with
  | none => d
  | some q => if q = 0 then d else q

/-- `a || d` on an optional string: substitute `d` when absent or empty
(the falsy strings). -/
def jsOrStr (a : Option String) (d : String) : String :=
  match a with
  | some s => if s = "" then d else s
  | none => d

/-- The fields of a raw NEO record that `mapNEO` reads:
`name`, `id`, `is_potentially_hazardous_asteroid`,
`close_approach_data[0].relative_velocity.kilometers_per_second` /
`kilometers_per_hour`, `close_approach_data[0].miss_distance.kilometers`
/ `lunar`, `absolute_magnitude_h`, and
`close_approach_data[0].close_approach_date`.  Absent
`close_approach_data` is the state where all `cad0` fields are
`missing`. -/
structure RawNeo where
  name : Option String
  id : Option String
  hazardous : Bool
  kps : JVal
  kph : JVal
  missKm : JVal
  missLunar : JVal
  absMag : JVal
  approachDate : Option String
deriving Repr

/-- The produced record.  `mag` is an `Option ℚ` because
`Number(raw?.absolute_magnitude_h ?? 21.0)` can evaluate to `NaN`
(modelled `none`) when the field is present but non-numeric. -/
structure NeoRecord where
  name : String
  hazard : Bool
  vel : ℚ
  miss : ℚ
  mag : Option ℚ
  date : String
deriving Repr

def mapNEO (raw : RawNeo) : NeoRecord :=
  { name := jsOrStr raw.name (jsOrStr raw.id "NEO")
    hazard := raw.hazardous
    vel := jsOrNum (toNumber (coalesce raw.kps raw.kph)) 10000
    miss := jsOrNum (toNumber (coalesce raw.missKm raw.missLunar)) 500000
    mag := if raw.absMag = JVal.missing then some 21 else toNumber raw.absMag
    date := (raw.approachDate).getD "" }

/-! ### MIDI events and the drain loop (source lines 135-152 and 568-585)

`useMIDIEvents` produces note events `{time, duration, midi, velocity}`
with `velocity ∈ [0,1]`; the drain loop pops the queue front while its
`time ≤ playhead + offset` and, when at least one object exists, routes
the popped event to object `cursor % neosLen`, raising that object's
pulse to `max(pulse[idx] || 0, evt.velocity || 0.8)` and advancing the
cursor to `(cursor + 1) % max 1 neosLen`. -/

structure MidiEvent where
  time : ℚ
  duration : ℚ
  midi : Nat
  velocity : ℚ
deriving DecidableEq, Repr

/-- `evt.velocity || 0.8`: the falsy-velocity fallback. -/
def jsVel (v : ℚ) : ℚ := if v = 0 then 0.8 else v

/-- One routing step of the drain loop's body (the `if (neos.length > 0)`
block of source lines 575-579), acting on the pulse array and the
round-robin cursor.  The pulse array has length `neosLen` in the
program (the resize effect of source line 534). -/
def routeEvent (neosLen : Nat) (pulses : List ℚ) (cursor : Nat)
    (e : MidiEvent) : List ℚ × Nat :=
  if 0 < neosLen then
    let idx := cursor % neosLen
    (pulses.set idx (max (pulses.getD idx 0) (jsVel e.velocity)),
     (cursor + 1) % max 1 neosLen)
  else (pulses, cursor)

/-- Result of one drain pass: the remaining queue, the pulse array, the
cursor, and the fired events in the order they were popped. -/
structure DrainResult where
  queue : List MidiEvent
  pulses : List ℚ
  cursor : Nat
  fired : List MidiEvent
deriving Repr

/-- The drain loop (source lines 573-579): pop the queue front while its
time is `≤ t` (with `t = playhead + offset`), routing each popped event
when objects exist. -/
def drain (neosLen : Nat) (t : ℚ) :
    List MidiEvent → List ℚ → Nat → DrainResult
  | [], pulses, cursor => ⟨[], pulses, cursor, []⟩
  | e :: rest, pulses, cursor =>
    if e.time ≤ t then
      let st := routeEvent neosLen pulses cursor e
      let r := drain neosLen t rest st.1 st.2
      ⟨r.queue, r.pulses, r.cursor, e :: r.fired⟩
    else ⟨e :: rest, pulses, cursor, []⟩

/-! ### The analyser tick's pulse updates (source lines 552-557) -/

/-- The loudness-surge trigger: when `level > 0.75` and at least one
object exists, every pulse entry is overwritten with `1`. -/
def surge (level : ℚ) (neosLen : Nat) (pulses : List ℚ) : List ℚ :=
  if level > 0.75 ∧ 0 < neosLen then pulses.map (fun _ => 1) else pulses

/-- The per-tick decay: `pulse[i] = max(0, pulse[i] - 0.02)`. -/
def decayStep (pulses : List ℚ) : List ℚ :=
  pulses.map (fun p => max 0 (p - 0.02))

/-- The pulse part of one analyser tick: the surge trigger, then decay
applied once. -/
def analyserTick (level : ℚ) (neosLen : Nat) (pulses : List ℚ) : List ℚ :=
  decayStep (surge level neosLen pulses)

/-! ### Spectrum smoothing (source lines 547-550)

`spectrumRef.current[i] = spectrumRef.current[i] * 0.85 + spec[i] * 0.15`
for every band index, both arrays having length `NUM_BANDS`. -/

def smoothUpdate (state raw : List ℚ) : List ℚ :=
  List.zipWith (fun s r => s * 0.85 + r * 0.15) state raw

/-! ### Band/slot assignment (source lines 467-478)

`Scene`'s `banded` memo: for each NEO at source index `i`,
`band = numBands ? hashStr(n.name || String(i)) % numBands : 0`; items
are pushed into a `Map` from band to arrival-ordered list, then the
groups are flattened in key-insertion order, tagging each item with its
position in its group as `slot`. -/

/-- The band of the object named `name` at source index `i`. -/
def bandCode (numBands : Nat) (name : String) (i : Nat) : Nat :=
  if numBands ≠ 0 then hashStr (if name = "" then toString i else name) % numBands
  else 0

/-- `groups.set(band, list ++ [idx])` on an insertion-ordered map: append
to the first entry with this key, or append a fresh key at the end. -/
def insertGroup : List (Nat × List Nat) → Nat → Nat → List (Nat × List Nat)
  | [], band, idx => [(band, [idx])]
  | (b, l) :: rest, band, idx =>
    if b = band then (b, l ++ [idx]) :: rest
    else (b, l) :: insertGroup rest band idx

/-- The `groups` map after the `forEach` over `neos`. -/
def buildGroups (neos : List String) (numBands : Nat) : List (Nat × List Nat) :=
  neos.enum.foldl (fun gs p => insertGroup gs (bandCode numBands p.2 p.1) p.1) []

/-- The flattened assignment: entries `(idx, band, slot)` in the order
the source pushes them into `flat`. -/
def bandedFlat (neos : List String) (numBands : Nat) : List (Nat × Nat × Nat) :=
  (buildGroups neos numBands).foldl
    (fun acc g => acc ++ g.2.enum.map (fun q => (q.2, g.1, q.1))) []

/-- Lookup of a band's arrival-ordered index list in the insertion-order
map (`groups.get(band)`, reading `[]` for an absent key); used to state
and prove the invariants of `buildGroups`. -/
def groupOf (gs : List (Nat × List Nat)) (b : Nat) : List Nat :=
  match gs.find? (fun g => g.1 == b) with
  | some g => g.2
  | none => []

/-- The slot predicted from arrival order: how many earlier objects were
assigned the same band. -/
def slotSpec (neos : List String) (numBands : Nat) (i : Nat) : Nat :=
  ((List.range i).filter
    (fun j => bandCode numBands (neos.getD j "") j
      = bandCode numBands (neos.getD i "") i)).length

/-! ### Concrete records used by witnesses and counterexamples -/

/-- A raw record whose `absolute_magnitude_h` is a non-numeric string
(`Number` of it is `NaN`) and whose other numeric fields are absent. -/
def malformedMagRaw : RawNeo :=
  { name := some "2024 XY"
    id := none
    hazardous := false
    kps := JVal.str none
    kph := JVal.missing
    missKm := JVal.missing
    missLunar := JVal.missing
    absMag := JVal.str none
    approachDate := none }

/-- A raw record whose velocity and miss distance both parse to the
legitimate number `0`. -/
def zeroRaw : RawNeo :=
  { name := some "2024 ZZ"
    id := none
    hazardous := true
    kps := JVal.num 0
    kph := JVal.missing
    missKm := JVal.num 0
    missLunar := JVal.missing
    absMag := JVal.num 19
    approachDate := some "2024-06-01" }

end NeoSon

namespace NeoSon

/-! ## Helper lemmas -/

theorem fnv1aSpecAux_eq_foldl (l : List Nat) :
    ∀ h : Nat, fnv1aSpecAux h l
      = l.foldl (fun h c => ((h ^^^ c) * 16777619) % 2 ^ 32) h := by
  induction l with
  | nil => intro h; rfl
  | cons c cs ih => intro h; simp only [fnv1aSpecAux, List.foldl_cons, ih]

theorem hashStr_lt_aux (l : List Char) :
    ∀ h : Nat, h < 2 ^ 32 →
      l.foldl (fun h c => ((h ^^^ c.toNat) * 16777619) % 2 ^ 32) h < 2 ^ 32 := by
  induction l with
  | nil => intro h hh; simpa using hh
  | cons c cs ih =>
    intro h _
    exact ih _ (Nat.mod_lt _ (by norm_num))

theorem getD_replicate_lt (n i : Nat) (v : ℚ) (h : i < n) :
    (List.replicate n v).getD i 0 = v := by
  induction n generalizing i with
  | zero => omega
  | succ n ih =>
    cases i with
    | zero => rfl
    | succ i => simpa [List.replicate] using ih i (by omega)

theorem getD_zipWith (f : ℚ → ℚ → ℚ) (a : List ℚ) :
    ∀ (b : List ℚ) (i : Nat), i < a.length → i < b.length →
      (List.zipWith f a b).getD i 0 = f (a.getD i 0) (b.getD i 0) := by
  induction a with
  | nil => intro b i hi _; simp at hi
  | cons x xs ih =>
    intro b i hi hb
    cases b with
    | nil => simp at hb
    | cons y ys =>
      cases i with
      | zero => rfl
      | succ i =>
        simpa [List.zipWith] using ih ys i (by simpa using hi) (by simpa using hb)

theorem getD_set_self (l : List ℚ) :
    ∀ (i : Nat) (v : ℚ), i < l.length → (l.set i v).getD i 0 = v := by
  induction l with
  | nil => intro i v h; simp at h
  | cons x xs ih =>
    intro i v h
    cases i with
    | zero => rfl
    | succ i => simpa [List.set] using ih i v (by simpa using h)

theorem getD_set_ne (l : List ℚ) :
    ∀ (i j : Nat) (v : ℚ), i ≠ j → (l.set i v).getD j 0 = l.getD j 0 := by
  induction l with
  | nil => intro i j v _; simp
  | cons x xs ih =>
    intro i j v hij
    cases i with
    | zero =>
      cases j with
      | zero => exact absurd rfl hij
      | succ j => rfl
    | succ i =>
      cases j with
      | zero => rfl
      | succ j => simpa [List.set] using ih i j v (by omega)

theorem set_replicate_self (v : ℚ) : ∀ (n i : Nat),
    (List.replicate n v).set i v = List.replicate n v := by
  intro n
  induction n with
  | zero => intro i; rfl
  | succ n ih =>
    intro i
    cases i with
    | zero => rfl
    | succ i => simp [List.replicate, List.set, ih i]

/-! ## C7: `hashStr` is standard 32-bit FNV-1a -/

/-- C7: `hashStr` computes the 32-bit FNV-1a hash as the spec describes
it (offset basis 2166136261, prime 16777619, masked to unsigned 32-bit
at each step), its result is always a 32-bit value, and the literal
strings "2024 AB", "Eros" and "NEO" hash to fixed values. -/
theorem C7_hashStr_is_fnv1a :
    (∀ s : String, hashStr s = fnv1aSpec s) ∧
    (∀ s : String, hashStr s < 2 ^ 32) ∧
    hashStr "2024 AB" = 1763011396 ∧
    hashStr "Eros" = 2961048696 ∧
    hashStr "NEO" = 3000285897 := by
  refine ⟨fun s => ?_, fun s => ?_, by decide, by decide, by decide⟩
  · rw [hashStr, fnv1aSpec, fnv1aSpecAux_eq_foldl, List.foldl_map]
  · exact hashStr_lt_aux s.data 2166136261 (by norm_num)

/-! ## C3: `mapNEO` and non-numeric magnitudes -/

/-- C3 (code evaluated at the failing input): for a raw record whose
`absolute_magnitude_h` is a present but non-numeric string, `mapNEO`
propagates `NaN` (modelled `none`) as the magnitude instead of the
default 21.0, while velocity and miss distance do fall back to their
defaults.  `Number(raw?.absolute_magnitude_h ?? 21.0)` only substitutes
21.0 for an absent field; `Number` of a non-numeric string is `NaN` and
is kept. -/
theorem C3_magnitude_nan_propagates :
    (mapNEO malformedMagRaw).mag = none ∧
    (mapNEO malformedMagRaw).mag ≠ some 21 ∧
    (mapNEO malformedMagRaw).vel = 10000 ∧
    (mapNEO malformedMagRaw).miss = 500000 := by
  refine ⟨rfl, by decide, rfl, rfl⟩

/-! ## C10: a parsed zero is replaced by the missing-data default -/

/-- C10: for every raw record, each zero-parsing field independently
falls back to its missing-data default: whenever the relative velocity
datum parses to exactly `0` the mapped velocity is 10000, and whenever
the miss distance datum parses to exactly `0` the mapped miss distance
is 500000 — regardless of the other field.  `Number(x) || d` cannot
distinguish a legitimate zero from absent data. -/
theorem C10_zero_parses_to_default (raw : RawNeo) :
    (toNumber (coalesce raw.kps raw.kph) = some 0 →
      (mapNEO raw).vel = 10000) ∧
    (toNumber (coalesce raw.missKm raw.missLunar) = some 0 →
      (mapNEO raw).miss = 500000) := by
  constructor
  · intro hv
    show jsOrNum (toNumber (coalesce raw.kps raw.kph)) 10000 = 10000
    rw [hv]; simp [jsOrNum]
  · intro hm
    show jsOrNum (toNumber (coalesce raw.missKm raw.missLunar)) 500000 = 500000
    rw [hm]; simp [jsOrNum]

/-- Witness for C10 at the concrete record `zeroRaw`, discharging each
implication's hypothesis separately. -/
theorem C10_zero_parses_to_default_witness :
    toNumber (coalesce zeroRaw.kps zeroRaw.kph) = some 0 ∧
    toNumber (coalesce zeroRaw.missKm zeroRaw.missLunar) = some 0 ∧
    (mapNEO zeroRaw).vel = 10000 ∧ (mapNEO zeroRaw).miss = 500000 :=
  ⟨by decide, by decide,
    (C10_zero_parses_to_default zeroRaw).1 (by decide),
    (C10_zero_parses_to_default zeroRaw).2 (by decide)⟩

/-! ## C8: exponential smoothing -/

theorem smoothScalar (x v : ℚ) :
    min x v ≤ x * 0.85 + v * 0.15 ∧ x * 0.85 + v * 0.15 ≤ max x v ∧
    |v - (x * 0.85 + v * 0.15)| = 0.85 * |v - x| := by
  rcases le_total x v with h | h
  · rw [min_eq_left h, max_eq_right h,
      abs_of_nonneg (by linarith), abs_of_nonneg (by linarith)]
    refine ⟨by linarith, by linarith, by ring⟩
  · rw [min_eq_right h, max_eq_left h,
      abs_of_nonpos (by linarith), abs_of_nonpos (by linarith)]
    refine ⟨by linarith, by linarith, by ring⟩

theorem smoothUpdate_length (s r : List ℚ) :
    (smoothUpdate s r).length = min s.length r.length := by
  simp [smoothUpdate]

theorem smoothUpdate_getD (s : List ℚ) (n : Nat) (v : ℚ) (i : Nat)
    (hlen : s.length = n) (hi : i < n) :
    (smoothUpdate s (List.replicate n v)).getD i 0
      = s.getD i 0 * 0.85 + v * 0.15 := by
  rw [smoothUpdate, getD_zipWith _ s (List.replicate n v) i (by omega) (by simpa),
    getD_replicate_lt n i v hi]

theorem smoothIterate_length (s : List ℚ) (n : Nat) (v : ℚ)
    (hlen : s.length = n) :
    ∀ k : Nat, ((fun l => smoothUpdate l (List.replicate n v))^[k] s).length = n := by
  intro k
  induction k with
  | zero => simpa using hlen
  | succ k ih =>
    rw [Function.iterate_succ_apply', smoothUpdate_length, ih]
    simp

/-- C8: one smoothing update sets band `i` to `old*0.85 + raw*0.15`
independently of the other bands; against the constant raw frame `v`
the new value lies between the previous value and `v` (never
overshoots), its distance to `v` contracts by the exact factor 0.85,
and repeated updates approach `v` monotonically. -/
theorem C8_smoothing_monotone (s : List ℚ) (n : Nat) (v : ℚ) (i : Nat)
    (hlen : s.length = n) (hi : i < n) :
    (smoothUpdate s (List.replicate n v)).getD i 0
      = s.getD i 0 * 0.85 + v * 0.15 ∧
    min (s.getD i 0) v ≤ (smoothUpdate s (List.replicate n v)).getD i 0 ∧
    (smoothUpdate s (List.replicate n v)).getD i 0 ≤ max (s.getD i 0) v ∧
    |v - (smoothUpdate s (List.replicate n v)).getD i 0|
      = 0.85 * |v - s.getD i 0| ∧
    (∀ k : Nat,
      |v - ((fun l => smoothUpdate l (List.replicate n v))^[k + 1] s).getD i 0|
        ≤ |v - ((fun l => smoothUpdate l (List.replicate n v))^[k] s).getD i 0|) := by
  have base := smoothUpdate_getD s n v i hlen hi
  have hs := smoothScalar (s.getD i 0) v
  refine ⟨base, by rw [base]; exact hs.1, by rw [base]; exact hs.2.1,
    by rw [base]; exact hs.2.2, fun k => ?_⟩
  set F : List ℚ → List ℚ := fun l => smoothUpdate l (List.replicate n v) with hF
  have hk : (F^[k] s).length = n := smoothIterate_length s n v hlen k
  have step : (F^[k + 1] s).getD i 0 = (F^[k] s).getD i 0 * 0.85 + v * 0.15 := by
    rw [Function.iterate_succ_apply']
    exact smoothUpdate_getD (F^[k] s) n v i hk hi
  rw [step, (smoothScalar ((F^[k] s).getD i 0) v).2.2]
  nlinarith [abs_nonneg (v - (F^[k] s).getD i 0)]

/-- Witness for C8 at `s = [1/2, 0]`, `n = 2`, `v = 1`, `i = 0`. -/
theorem C8_smoothing_monotone_witness :
    ([(1 : ℚ)/2, 0] : List ℚ).length = 2 ∧ 0 < 2 ∧
    ((smoothUpdate [(1 : ℚ)/2, 0] (List.replicate 2 1)).getD 0 0
        = ([(1 : ℚ)/2, 0] : List ℚ).getD 0 0 * 0.85 + 1 * 0.15 ∧
      min (([(1 : ℚ)/2, 0] : List ℚ).getD 0 0) 1
        ≤ (smoothUpdate [(1 : ℚ)/2, 0] (List.replicate 2 1)).getD 0 0 ∧
      (smoothUpdate [(1 : ℚ)/2, 0] (List.replicate 2 1)).getD 0 0
        ≤ max (([(1 : ℚ)/2, 0] : List ℚ).getD 0 0) 1 ∧
      |1 - (smoothUpdate [(1 : ℚ)/2, 0] (List.replicate 2 1)).getD 0 0|
        = 0.85 * |1 - ([(1 : ℚ)/2, 0] : List ℚ).getD 0 0| ∧
      (∀ k : Nat,
        |1 - ((fun l => smoothUpdate l (List.replicate 2 1))^[k + 1]
            [(1 : ℚ)/2, 0]).getD 0 0|
          ≤ |1 - ((fun l => smoothUpdate l (List.replicate 2 1))^[k]
            [(1 : ℚ)/2, 0]).getD 0 0|)) :=
  ⟨by decide, by decide,
    C8_smoothing_monotone [(1 : ℚ)/2, 0] 2 1 0 (by decide) (by decide)⟩

/-! ## C4: MIDI routing raises the pulse -/

/-- C4 (amended): a routed MIDI event sets the target object's pulse to
`max(currentPulse, evt.velocity || 0.8)`.  For an event velocity in
`(0, 1]` this is `max(currentPulse, eventVelocity)` as the claim says;
a zero (falsy) velocity is replaced by 0.8.  In all cases routing never
decreases any object's pulse, and the cursor advances by one modulo the
object count. -/
theorem C4_route_raises_pulse (neosLen : Nat) (pulses : List ℚ)
    (cursor : Nat) (e : MidiEvent)
    (hn : 0 < neosLen) (hlen : pulses.length = neosLen) :
    (routeEvent neosLen pulses cursor e).1.getD (cursor % neosLen) 0
      = max (pulses.getD (cursor % neosLen) 0) (jsVel e.velocity) ∧
    (e.velocity ≠ 0 →
      (routeEvent neosLen pulses cursor e).1.getD (cursor % neosLen) 0
        = max (pulses.getD (cursor % neosLen) 0) e.velocity) ∧
    (∀ j : Nat, pulses.getD j 0
      ≤ (routeEvent neosLen pulses cursor e).1.getD j 0) ∧
    (routeEvent neosLen pulses cursor e).2 = (cursor + 1) % neosLen := by
  have hidx : cursor % neosLen < pulses.length := by
    rw [hlen]; exact Nat.mod_lt _ hn
  have hroute : routeEvent neosLen pulses cursor e
      = (pulses.set (cursor % neosLen)
          (max (pulses.getD (cursor % neosLen) 0) (jsVel e.velocity)),
        (cursor + 1) % max 1 neosLen) := by
    simp [routeEvent, hn]
  have hmax : max 1 neosLen = neosLen := by omega
  have hget : (routeEvent neosLen pulses cursor e).1.getD (cursor % neosLen) 0
      = max (pulses.getD (cursor % neosLen) 0) (jsVel e.velocity) := by
    rw [hroute]; exact getD_set_self _ _ _ hidx
  refine ⟨hget, fun hv => ?_, fun j => ?_, by rw [hroute, hmax]⟩
  · rw [hget, jsVel, if_neg hv]
  · by_cases hj : cursor % neosLen = j
    · subst hj; rw [hget]; exact le_max_left _ _
    · rw [hroute]
      rw [getD_set_ne _ _ _ _ hj]

/-- Witness for C4 at one object with pulse `0.2`, velocity `0.6`. -/
theorem C4_route_raises_pulse_witness :
    0 < 1 ∧ ([(0.2 : ℚ)] : List ℚ).length = 1 ∧
    ((routeEvent 1 [(0.2 : ℚ)] 0 ⟨0, 1, 60, 0.6⟩).1.getD (0 % 1) 0
        = max (([(0.2 : ℚ)] : List ℚ).getD (0 % 1) 0)
          (jsVel (MidiEvent.mk 0 1 60 0.6).velocity) ∧
      ((MidiEvent.mk 0 1 60 0.6).velocity ≠ 0 →
        (routeEvent 1 [(0.2 : ℚ)] 0 ⟨0, 1, 60, 0.6⟩).1.getD (0 % 1) 0
          = max (([(0.2 : ℚ)] : List ℚ).getD (0 % 1) 0)
            (MidiEvent.mk 0 1 60 0.6).velocity) ∧
      (∀ j : Nat, ([(0.2 : ℚ)] : List ℚ).getD j 0
        ≤ (routeEvent 1 [(0.2 : ℚ)] 0 ⟨0, 1, 60, 0.6⟩).1.getD j 0) ∧
      (routeEvent 1 [(0.2 : ℚ)] 0 ⟨0, 1, 60, 0.6⟩).2 = (0 + 1) % 1) :=
  ⟨by decide, by decide,
    C4_route_raises_pulse 1 [(0.2 : ℚ)] 0 ⟨0, 1, 60, 0.6⟩
      (by decide) (by decide)⟩

/-- Counterexample to C4 as stated: routing an event whose velocity is
exactly 0 (which is in `[0,1]`) onto a single object with pulse `0.1`
yields pulse `0.8`, not `max(0.1, 0) = 0.1`. -/
theorem C4_counterexample :
    (routeEvent 1 [(0.1 : ℚ)] 0 ⟨0, 1, 60, 0⟩).1.getD 0 0 = 0.8 ∧
    max ((0.1 : ℚ)) (0 : ℚ) = 0.1 ∧ ((0.8 : ℚ)) ≠ 0.1 := by
  refine ⟨by norm_num [routeEvent, jsVel], by norm_num, by norm_num⟩

/-! ## C5: the loudness surge overwrites every pulse -/

theorem routeEvent_length (neosLen : Nat) (pulses : List ℚ) (cursor : Nat)
    (e : MidiEvent) : (routeEvent neosLen pulses cursor e).1.length
      = pulses.length := by
  unfold routeEvent
  split <;> simp

/-- Whatever the pulse array holds, a surging tick rewrites it to all
ones and then decays once. -/
theorem analyserTick_saturates (level : ℚ) (neosLen : Nat) (pulses : List ℚ)
    (hl : level > 0.75) (hn : 0 < neosLen) :
    analyserTick level neosLen pulses
      = List.replicate pulses.length 0.98 := by
  have hsurge : surge level neosLen pulses = List.replicate pulses.length 1 := by
    rw [surge, if_pos ⟨hl, hn⟩, List.map_const']
  rw [analyserTick, hsurge, decayStep, List.map_replicate]
  norm_num

/-- C5: on a tick where loudness exceeds 0.75 and objects exist, every
object's pulse is overwritten to 1 and then decayed once, ending the
tick at `1 - 0.02 = 0.98` regardless of its prior value; a MIDI event
of velocity 0.5 routed to one of the objects in the same tick — on
either side of the analyser update — leaves every pulse at 0.98. -/
theorem C5_surge_overwrites (level : ℚ) (pulses : List ℚ)
    (neosLen cursor : Nat) (e : MidiEvent)
    (hl : level > 0.75) (hn : 0 < neosLen) (hlen : pulses.length = neosLen)
    (hv : e.velocity = 0.5) :
    analyserTick level neosLen pulses
      = List.replicate pulses.length 0.98 ∧
    (routeEvent neosLen (analyserTick level neosLen pulses) cursor e).1
      = List.replicate pulses.length 0.98 ∧
    analyserTick level neosLen (routeEvent neosLen pulses cursor e).1
      = List.replicate pulses.length 0.98 := by
  have hbase := analyserTick_saturates level neosLen pulses hl hn
  refine ⟨hbase, ?_, ?_⟩
  · rw [hbase]
    have hidx : cursor % neosLen < pulses.length := by
      rw [hlen]; exact Nat.mod_lt _ hn
    have hr : routeEvent neosLen (List.replicate pulses.length 0.98) cursor e
        = ((List.replicate pulses.length (0.98 : ℚ)).set (cursor % neosLen)
            (max ((List.replicate pulses.length (0.98 : ℚ)).getD
              (cursor % neosLen) 0) (jsVel e.velocity)),
          (cursor + 1) % max 1 neosLen) := by
      simp [routeEvent, hn]
    rw [hr]
    have hg : (List.replicate pulses.length (0.98 : ℚ)).getD
        (cursor % neosLen) 0 = 0.98 := getD_replicate_lt _ _ _ hidx
    have hjs : jsVel e.velocity = 0.5 := by rw [jsVel, hv]; norm_num
    rw [hg, hjs]
    have hm : max (0.98 : ℚ) 0.5 = 0.98 := by norm_num
    rw [hm, set_replicate_self]
  · rw [show analyserTick level neosLen (routeEvent neosLen pulses cursor e).1
        = List.replicate (routeEvent neosLen pulses cursor e).1.length 0.98 from
      analyserTick_saturates level neosLen _ hl hn, routeEvent_length]

/-- Witness for C5 at `level = 0.8`, `pulses = [0.3, 0.6]`,
`neosLen = 2`, `cursor = 0`, velocity `0.5`. -/
theorem C5_surge_overwrites_witness :
    (0.8 : ℚ) > 0.75 ∧ 0 < 2 ∧ ([(0.3 : ℚ), 0.6] : List ℚ).length = 2 ∧
    (MidiEvent.mk 0 1 60 0.5).velocity = 0.5 ∧
    (analyserTick 0.8 2 [(0.3 : ℚ), 0.6]
        = List.replicate ([(0.3 : ℚ), 0.6] : List ℚ).length 0.98 ∧
      (routeEvent 2 (analyserTick 0.8 2 [(0.3 : ℚ), 0.6]) 0
          ⟨0, 1, 60, 0.5⟩).1
        = List.replicate ([(0.3 : ℚ), 0.6] : List ℚ).length 0.98 ∧
      analyserTick 0.8 2 (routeEvent 2 [(0.3 : ℚ), 0.6] 0 ⟨0, 1, 60, 0.5⟩).1
        = List.replicate ([(0.3 : ℚ), 0.6] : List ℚ).length 0.98) :=
  ⟨by norm_num, by norm_num, by decide, rfl,
    C5_surge_overwrites 0.8 [(0.3 : ℚ), 0.6] 2 0 ⟨0, 1, 60, 0.5⟩
      (by norm_num) (by norm_num) (by decide) rfl⟩

/-! ## The drain loop: C9 and C6 -/

theorem drain_queue_fired (n : Nat) (t : ℚ) : ∀ (evts : List MidiEvent)
    (pulses : List ℚ) (cursor : Nat),
    (drain n t evts pulses cursor).queue
      = evts.dropWhile (fun e => decide (e.time ≤ t)) ∧
    (drain n t evts pulses cursor).fired
      = evts.takeWhile (fun e => decide (e.time ≤ t)) := by
  intro evts
  induction evts with
  | nil => intro pulses cursor; exact ⟨rfl, rfl⟩
  | cons e rest ih =>
    intro pulses cursor
    by_cases h : e.time ≤ t
    · have ihr := ih (routeEvent n pulses cursor e).1
        (routeEvent n pulses cursor e).2
      simp [drain, h, List.dropWhile, List.takeWhile, ihr.1, ihr.2]
    · simp [drain, h, List.dropWhile, List.takeWhile]

theorem drain_zero_state (t : ℚ) : ∀ (evts : List MidiEvent)
    (pulses : List ℚ) (cursor : Nat),
    (drain 0 t evts pulses cursor).pulses = pulses ∧
    (drain 0 t evts pulses cursor).cursor = cursor := by
  intro evts
  induction evts with
  | nil => intro pulses cursor; exact ⟨rfl, rfl⟩
  | cons e rest ih =>
    intro pulses cursor
    by_cases h : e.time ≤ t
    · have hroute : routeEvent 0 pulses cursor e = (pulses, cursor) := by
        simp [routeEvent]
      have ihr := ih pulses cursor
      simp [drain, h, hroute, ihr.1, ihr.2]
    · simp [drain, h]

/-- C9: a drain pass with zero objects still pops every due event off
the front of the queue (the same events any drain pass pops), fires
them, leaves every pulse value untouched and does not advance the
round-robin cursor; being a total function, it never throws. -/
theorem C9_drain_zero_objects (t : ℚ) (evts : List MidiEvent)
    (pulses : List ℚ) (cursor : Nat) :
    (drain 0 t evts pulses cursor).pulses = pulses ∧
    (drain 0 t evts pulses cursor).cursor = cursor ∧
    (drain 0 t evts pulses cursor).queue
      = evts.dropWhile (fun e => decide (e.time ≤ t)) ∧
    (drain 0 t evts pulses cursor).fired
      = evts.takeWhile (fun e => decide (e.time ≤ t)) ∧
    (∀ n : Nat, (drain n t evts pulses cursor).queue
      = (drain 0 t evts pulses cursor).queue ∧
      (drain n t evts pulses cursor).fired
        = (drain 0 t evts pulses cursor).fired) := by
  obtain ⟨hq, hf⟩ := drain_queue_fired 0 t evts pulses cursor
  obtain ⟨hp, hc⟩ := drain_zero_state t evts pulses cursor
  refine ⟨hp, hc, hq, hf, fun n => ?_⟩
  obtain ⟨hq', hf'⟩ := drain_queue_fired n t evts pulses cursor
  rw [hq', hf', hq, hf]
  exact ⟨rfl, rfl⟩

theorem sorted_dropWhile_gt (t : ℚ) : ∀ l : List MidiEvent,
    l.Pairwise (fun a b => a.time ≤ b.time) →
    ∀ e ∈ l.dropWhile (fun e => decide (e.time ≤ t)), t < e.time := by
  intro l
  induction l with
  | nil => intro _ e he; simp at he
  | cons a rest ih =>
    intro hp e he
    rw [List.pairwise_cons] at hp
    by_cases h : a.time ≤ t
    · rw [List.dropWhile_cons_of_pos (by simpa using h)] at he
      exact ih hp.2 e he
    · rw [List.dropWhile_cons_of_neg (by simpa using h)] at he
      rw [List.mem_cons] at he
      rcases he with he | he
      · exact lt_of_not_le (he ▸ h)
      · exact lt_of_lt_of_le (lt_of_not_le h) (hp.1 e he)

/-- C6: on a queue sorted ascending by time, one drain pass at playhead
`t` with offset `o` splits the queue: the fired events followed by the
remaining queue reassemble the original queue (removal happens only at
the front), every fired event's time is `≤ t + o`, every retained
event's time is `> t + o`, and both the fired sequence and the
remaining queue are still sorted ascending by time. -/
theorem C6_drain_sorted_prefix (neosLen : Nat) (t o : ℚ)
    (evts : List MidiEvent) (pulses : List ℚ) (cursor : Nat)
    (hsorted : evts.Pairwise (fun a b => a.time ≤ b.time)) :
    (drain neosLen (t + o) evts pulses cursor).fired
        ++ (drain neosLen (t + o) evts pulses cursor).queue = evts ∧
    (∀ e ∈ (drain neosLen (t + o) evts pulses cursor).fired,
      e.time ≤ t + o) ∧
    (∀ e ∈ (drain neosLen (t + o) evts pulses cursor).queue,
      t + o < e.time) ∧
    (drain neosLen (t + o) evts pulses cursor).fired.Pairwise
      (fun a b => a.time ≤ b.time) ∧
    (drain neosLen (t + o) evts pulses cursor).queue.Pairwise
      (fun a b => a.time ≤ b.time) := by
  obtain ⟨hq, hf⟩ := drain_queue_fired neosLen (t + o) evts pulses cursor
  rw [hq, hf]
  refine ⟨List.takeWhile_append_dropWhile _ _, ?_,
    sorted_dropWhile_gt (t + o) evts hsorted,
    hsorted.sublist (List.takeWhile_sublist _),
    hsorted.sublist (List.dropWhile_sublist _)⟩
  intro e he
  have h := List.mem_takeWhile_imp he
  simpa using h

/-- Witness for C6: events at times `[0.5, 1.0, 1.5]`, playhead `1.2`,
offset `0`, one object.  The first two events fire in order and the
queue retains the event at `1.5`. -/
theorem C6_drain_sorted_prefix_witness :
    ([⟨0.5, 0.5, 60, 0.7⟩, ⟨1, 0.5, 62, 0.6⟩, ⟨1.5, 0.5, 64, 0.9⟩]
        : List MidiEvent).Pairwise (fun a b => a.time ≤ b.time) ∧
    ((drain 1 ((1.2 : ℚ) + 0)
          [⟨0.5, 0.5, 60, 0.7⟩, ⟨1, 0.5, 62, 0.6⟩, ⟨1.5, 0.5, 64, 0.9⟩]
          [0] 0).fired
        ++ (drain 1 ((1.2 : ℚ) + 0)
          [⟨0.5, 0.5, 60, 0.7⟩, ⟨1, 0.5, 62, 0.6⟩, ⟨1.5, 0.5, 64, 0.9⟩]
          [0] 0).queue
        = [⟨0.5, 0.5, 60, 0.7⟩, ⟨1, 0.5, 62, 0.6⟩, ⟨1.5, 0.5, 64, 0.9⟩] ∧
      (∀ e ∈ (drain 1 ((1.2 : ℚ) + 0)
          [⟨0.5, 0.5, 60, 0.7⟩, ⟨1, 0.5, 62, 0.6⟩, ⟨1.5, 0.5, 64, 0.9⟩]
          [0] 0).fired, e.time ≤ (1.2 : ℚ) + 0) ∧
      (∀ e ∈ (drain 1 ((1.2 : ℚ) + 0)
          [⟨0.5, 0.5, 60, 0.7⟩, ⟨1, 0.5, 62, 0.6⟩, ⟨1.5, 0.5, 64, 0.9⟩]
          [0] 0).queue, (1.2 : ℚ) + 0 < e.time) ∧
      (drain 1 ((1.2 : ℚ) + 0)
          [⟨0.5, 0.5, 60, 0.7⟩, ⟨1, 0.5, 62, 0.6⟩, ⟨1.5, 0.5, 64, 0.9⟩]
          [0] 0).fired.Pairwise (fun a b => a.time ≤ b.time) ∧
      (drain 1 ((1.2 : ℚ) + 0)
          [⟨0.5, 0.5, 60, 0.7⟩, ⟨1, 0.5, 62, 0.6⟩, ⟨1.5, 0.5, 64, 0.9⟩]
          [0] 0).queue.Pairwise (fun a b => a.time ≤ b.time)) :=
  ⟨by norm_num [List.pairwise_cons],
    C6_drain_sorted_prefix 1 1.2 0
      [⟨0.5, 0.5, 60, 0.7⟩, ⟨1, 0.5, 62, 0.6⟩, ⟨1.5, 0.5, 64, 0.9⟩]
      [0] 0 (by norm_num [List.pairwise_cons])⟩

/-! ## C2: spectrum binning -/

theorem sum_drop_take (src : List ℚ) : ∀ (k s : Nat), s + k ≤ src.length →
    ((src.drop s).take k).sum = ∑ i in Finset.Ico s (s + k), src.getD i 0 := by
  intro k
  induction k with
  | zero => intro s _; simp
  | succ k ih =>
    intro s h
    have hsk : s + k < src.length := by omega
    rw [List.take_succ, List.sum_append, List.getElem?_drop,
      List.getElem?_eq_getElem hsk]
    rw [show s + (k + 1) = (s + k) + 1 from rfl,
      Finset.sum_Ico_succ_top (by omega : s ≤ s + k), ih s (by omega),
      List.getD_eq_getElem src 0 hsk]
    simp

theorem getSpectrum_length (src : List ℚ) (bands : Nat) :
    (getSpectrum src bands).length = bands := by
  simp [getSpectrum]

theorem getSpectrum_entry (src : List ℚ) (bands b : Nat) (hb : b < bands) :
    (getSpectrum src bands).getD b 0 = specMeanBand src bands b := by
  rw [List.getD_eq_getElem _ 0 (by rw [getSpectrum_length]; exact hb)]
  unfold getSpectrum specMeanBand
  simp only [List.getElem_map, List.getElem_range]
  set L := src.length with hL
  set bin := max 1 (L / bands) with hbin
  set s := b * bin with hs
  set e := min L (s + bin) with he
  have hemin : e ≤ L := by omega
  have hgl : ((src.drop s).take (e - s)).length = e - s := by
    rw [List.length_take, List.length_drop]
    omega
  by_cases h0 : e ≤ s
  · rw [if_pos (by omega : ((src.drop s).take (e - s)).length = 0),
      if_pos h0]
  · rw [if_neg (by omega : ¬ ((src.drop s).take (e - s)).length = 0),
      if_neg h0, hgl]
    have hsum := sum_drop_take src (e - s) s (by omega)
    rw [show s + (e - s) = e by omega] at hsum
    rw [hsum]

theorem specMeanBand_congr (src src' : List ℚ) (bands b : Nat)
    (hb : b < bands) (hlen : src'.length = src.length)
    (hagree : ∀ i, i < bands * max 1 (src.length / bands) →
      src.getD i 0 = src'.getD i 0) :
    specMeanBand src bands b = specMeanBand src' bands b := by
  unfold specMeanBand
  rw [hlen]
  set L := src.length with hL
  set bin := max 1 (L / bands) with hbin
  set s := b * bin with hs
  set e := min L (s + bin) with he
  by_cases h0 : e ≤ s
  · rw [if_pos h0, if_pos h0]
  · rw [if_neg h0, if_neg h0]
    have hsum : ∑ i in Finset.Ico s e, src.getD i 0
        = ∑ i in Finset.Ico s e, src'.getD i 0 := by
      refine Finset.sum_congr rfl (fun i hi => ?_)
      rw [Finset.mem_Ico] at hi
      refine hagree i ?_
      have h1 : i < s + bin := by omega
      have h2 : s + bin = (b + 1) * bin := by rw [hs]; ring
      have h3 : (b + 1) * bin ≤ bands * bin :=
        Nat.mul_le_mul_right bin hb
      omega
    rw [hsum]

/-- C2 (amended): the raw spectrum frame has exactly `numBands` entries;
entry `b` is the mean normalized magnitude of the contiguous group of
`binWidth = max(1, floor(totalBins/numBands))` bins starting at
`b*binWidth` and clamped to `totalBins`; bins at index
`≥ numBands*binWidth` (the remainder) are dropped rather than absorbed,
so the frame is unchanged by any modification of those trailing bins. -/
theorem C2_spectrum_binning (src : List ℚ) (bands : Nat) (hb : 1 ≤ bands) :
    (getSpectrum src bands).length = bands ∧
    (∀ b, b < bands →
      (getSpectrum src bands).getD b 0 = specMeanBand src bands b) ∧
    (∀ src' : List ℚ, src'.length = src.length →
      (∀ i, i < bands * max 1 (src.length / bands) →
        src.getD i 0 = src'.getD i 0) →
      getSpectrum src bands = getSpectrum src' bands) := by
  refine ⟨getSpectrum_length src bands,
    fun b hbb => getSpectrum_entry src bands b hbb,
    fun src' hlen hagree => ?_⟩
  refine List.ext_getElem ?_ ?_
  · rw [getSpectrum_length, getSpectrum_length]
  · intro i h1 h2
    have hib : i < bands := by
      rw [getSpectrum_length] at h1; exact h1
    rw [← List.getD_eq_getElem _ 0 h1, ← List.getD_eq_getElem _ 0 h2,
      getSpectrum_entry src bands i hib, getSpectrum_entry src' bands i hib]
    refine specMeanBand_congr src src' bands i hib hlen ?_
    intro j hj
    exact hagree j hj

/-- Witness for C2 at the concrete snapshot `src10` with 3 bands. -/
theorem C2_spectrum_binning_witness :
    1 ≤ 3 ∧
    ((getSpectrum src10 3).length = 3 ∧
      (∀ b, b < 3 →
        (getSpectrum src10 3).getD b 0 = specMeanBand src10 3 b) ∧
      (∀ src' : List ℚ, src'.length = src10.length →
        (∀ i, i < 3 * max 1 (src10.length / 3) →
          src10.getD i 0 = src'.getD i 0) →
        getSpectrum src10 3 = getSpectrum src' 3)) :=
  ⟨by decide, C2_spectrum_binning src10 3 (by decide)⟩

set_option maxHeartbeats 1600000 in
/-- Counterexample to C2 as stated: with 10 bins and 3 bands the code's
groups cover indices 0-8 only, so energy in bin 9 is dropped — the
frame is all zeros and differs from the spec-described frame whose last
group absorbs the remainder; indeed the frame equals the one computed
from an all-zero snapshot. -/
theorem C2_counterexample :
    getSpectrum src10 3 = [0, 0, 0] ∧
    specSpectrumAbsorb src10 3 = [0, 0, 1/4] ∧
    getSpectrum src10 3 ≠ specSpectrumAbsorb src10 3 ∧
    getSpectrum src10 3 = getSpectrum (List.replicate 10 (0 : ℚ)) 3 := by
  have h1 : getSpectrum src10 3 = [0, 0, 0] := by
    norm_num [getSpectrum, src10, List.range_succ]
  have h2 : specSpectrumAbsorb src10 3 = [0, 0, 1/4] := by
    norm_num [specSpectrumAbsorb, src10, List.range_succ]
  have h3 : getSpectrum (List.replicate 10 (0 : ℚ)) 3 = [0, 0, 0] := by
    norm_num [getSpectrum, List.range_succ, List.replicate]
  refine ⟨h1, h2, ?_, by rw [h1, h3]⟩
  rw [h1, h2]
  intro h
  have h4 := List.ext_get?_iff.mp h 2
  norm_num at h4

/-! ## C1: band/slot assignment -/

theorem beq_decide (a b : Nat) : (a == b) = decide (a = b) := by
  by_cases h : a = b <;> simp [h]

theorem groupOf_nil (b : Nat) : groupOf [] b = [] := rfl

theorem groupOf_cons (b0 : Nat) (l : List Nat) (rest : List (Nat × List Nat))
    (b : Nat) : groupOf ((b0, l) :: rest) b
      = if b0 = b then l else groupOf rest b := by
  simp only [groupOf]
  by_cases h : b0 = b
  · rw [List.find?_cons_of_pos _ (by simpa using h), if_pos h]
  · rw [List.find?_cons_of_neg _ (by simpa using h), if_neg h]

theorem groupOf_insertGroup (band idx b : Nat) :
    ∀ gs : List (Nat × List Nat),
      groupOf (insertGroup gs band idx) b
        = if b = band then groupOf gs band ++ [idx] else groupOf gs b := by
  intro gs
  induction gs with
  | nil =>
    by_cases h : b = band
    · subst h; simp [insertGroup, groupOf_cons, groupOf_nil]
    · simp [insertGroup, groupOf_cons, groupOf_nil, h, Ne.symm h]
  | cons g rest ih =>
    obtain ⟨b0, l⟩ := g
    by_cases h0 : b0 = band
    · subst h0
      by_cases h : b = b0
      · subst h
        simp [insertGroup, groupOf_cons]
      · simp [insertGroup, groupOf_cons, h, Ne.symm h]
    · by_cases h : b0 = b
      · subst h
        have hbb : ¬ b0 = band := h0
        simp [insertGroup, h0, groupOf_cons, hbb, Ne.symm hbb]
      · simp [insertGroup, h0, groupOf_cons, h, ih]

theorem groupOf_foldl (nb : Nat) : ∀ (ps : List (Nat × String))
    (gs : List (Nat × List Nat)) (b : Nat),
    groupOf (ps.foldl
      (fun gs p => insertGroup gs (bandCode nb p.2 p.1) p.1) gs) b
      = groupOf gs b
        ++ (ps.filter (fun p => bandCode nb p.2 p.1 == b)).map Prod.fst := by
  intro ps
  induction ps with
  | nil => intro gs b; simp
  | cons p ps ih =>
    intro gs b
    rw [List.foldl_cons, ih, groupOf_insertGroup]
    by_cases h : b = bandCode nb p.2 p.1
    · rw [if_pos h, List.filter_cons,
        if_pos (by simpa using h.symm), List.map_cons, ← h]
      simp
    · rw [if_neg h, List.filter_cons,
        if_neg (by simpa using fun he => h he.symm)]

theorem keys_insertGroup (band idx : Nat) : ∀ gs : List (Nat × List Nat),
    (insertGroup gs band idx).map Prod.fst
      = if band ∈ gs.map Prod.fst then gs.map Prod.fst
        else gs.map Prod.fst ++ [band] := by
  intro gs
  induction gs with
  | nil => simp [insertGroup]
  | cons g rest ih =>
    obtain ⟨b0, l⟩ := g
    by_cases h : b0 = band
    · subst h; simp [insertGroup]
    · by_cases hm : band ∈ rest.map Prod.fst
      · simp [insertGroup, h, ih, hm, Ne.symm h]
      · simp [insertGroup, h, ih, hm, Ne.symm h]

theorem nodup_keys_insertGroup (band idx : Nat) (gs : List (Nat × List Nat))
    (h : (gs.map Prod.fst).Nodup) :
    ((insertGroup gs band idx).map Prod.fst).Nodup := by
  rw [keys_insertGroup]
  by_cases hm : band ∈ gs.map Prod.fst
  · rw [if_pos hm]; exact h
  · rw [if_neg hm]
    simp [List.nodup_append, h, hm]

theorem nodup_keys_buildGroups (nb : Nat) (neos : List String) :
    ((buildGroups neos nb).map Prod.fst).Nodup := by
  suffices H : ∀ (ps : List (Nat × String)) (gs : List (Nat × List Nat)),
      (gs.map Prod.fst).Nodup →
      ((ps.foldl (fun gs p => insertGroup gs (bandCode nb p.2 p.1) p.1)
        gs).map Prod.fst).Nodup by
    exact H neos.enum [] (by simp)
  intro ps
  induction ps with
  | nil => intro gs h; exact h
  | cons p ps ih =>
    intro gs h
    exact ih _ (nodup_keys_insertGroup _ _ _ h)

theorem groupOf_of_mem : ∀ (gs : List (Nat × List Nat)),
    (gs.map Prod.fst).Nodup → ∀ (b : Nat) (l : List Nat),
    (b, l) ∈ gs → groupOf gs b = l := by
  intro gs
  induction gs with
  | nil => intro _ b l h; simp at h
  | cons g rest ih =>
    intro hnd b l hmem
    obtain ⟨b0, l0⟩ := g
    have hnd' : b0 ∉ rest.map Prod.fst ∧ (rest.map Prod.fst).Nodup := by
      simpa using hnd
    rw [List.mem_cons] at hmem
    rcases hmem with h | h
    · have hb : b = b0 := ((Prod.mk.injEq _ _ _ _).mp h).1
      have hl : l = l0 := ((Prod.mk.injEq _ _ _ _).mp h).2
      subst hb; subst hl
      rw [groupOf_cons, if_pos rfl]
    · have hb : b ∈ rest.map Prod.fst := by
        simpa using ⟨l, h⟩
      rw [groupOf_cons, if_neg (fun (he : b0 = b) => hnd'.1 (he ▸ hb))]
      exact ih hnd'.2 b l h

theorem mem_of_groupOf_ne : ∀ (gs : List (Nat × List Nat)) (b : Nat),
    groupOf gs b ≠ [] → (b, groupOf gs b) ∈ gs := by
  intro gs
  induction gs with
  | nil => intro b h; exact absurd rfl h
  | cons g rest ih =>
    intro b h
    obtain ⟨b0, l0⟩ := g
    rw [groupOf_cons] at h ⊢
    by_cases h0 : b0 = b
    · rw [if_pos h0] at h ⊢
      subst h0
      exact List.mem_cons_self _ _
    · rw [if_neg h0] at h ⊢
      exact List.mem_cons_of_mem _ (ih b h)

theorem mem_foldl_append {α β : Type} (f : β → List α) :
    ∀ (gs : List β) (acc : List α) (x : α),
    (x ∈ gs.foldl (fun acc g => acc ++ f g) acc
      ↔ x ∈ acc ∨ ∃ g ∈ gs, x ∈ f g) := by
  intro gs
  induction gs with
  | nil => intro acc x; simp
  | cons g rest ih =>
    intro acc x
    rw [List.foldl_cons, ih]
    simp [List.mem_append, or_assoc]

theorem enum_filter_map_eq_range_filter (nb : Nat) :
    ∀ (neos : List String) (b : Nat),
    ((neos.enum.filter (fun p => bandCode nb p.2 p.1 == b)).map Prod.fst)
      = (List.range neos.length).filter
          (fun j => bandCode nb (neos.getD j "") j == b) := by
  intro neos
  induction neos using List.reverseRecOn with
  | nil => intro b; simp
  | append_singleton l a ih =>
    intro b
    rw [List.enum_append,
      show List.enumFrom l.length [a] = [(l.length, a)] from rfl,
      List.filter_append, List.map_append, ih b,
      show (l ++ [a]).length = l.length + 1 by simp,
      List.range_succ, List.filter_append]
    have hfront : (List.range l.length).filter
        (fun j => bandCode nb ((l ++ [a]).getD j "") j == b)
        = (List.range l.length).filter
          (fun j => bandCode nb (l.getD j "") j == b) := by
      refine List.filter_congr ?_
      intro j hj
      rw [List.mem_range] at hj
      rw [List.getD_append _ _ _ _ hj]
    have hlast : (l ++ [a]).getD l.length "" = a := by
      rw [List.getD_eq_getElem _ _ (by simp)]
      exact List.getElem_concat_length l a l.length rfl _
    rw [hfront]
    congr 1
    by_cases hc : bandCode nb a l.length == b
    · simp [List.filter_cons, hc, hlast]
    · simp [List.filter_cons, hc, hlast]

theorem groupOf_buildGroups (neos : List String) (nb b : Nat) :
    groupOf (buildGroups neos nb) b
      = (List.range neos.length).filter
          (fun j => bandCode nb (neos.getD j "") j == b) := by
  rw [buildGroups, groupOf_foldl nb neos.enum [] b, groupOf_nil,
    List.nil_append]
  exact enum_filter_map_eq_range_filter nb neos b

theorem sorted_get?_eq_filter_length : ∀ (l : List Nat),
    l.Pairwise (· < ·) → ∀ (s i : Nat), l.get? s = some i →
    s = (l.filter (fun x => decide (x < i))).length := by
  intro l
  induction l with
  | nil => intro _ s i h; simp at h
  | cons a rest ih =>
    intro hp s i h
    rw [List.pairwise_cons] at hp
    cases s with
    | zero =>
      have ha : a = i := by simpa using h
      subst ha
      have hnil : (a :: rest).filter (fun x => decide (x < a)) = [] := by
        rw [List.filter_eq_nil_iff]
        intro x hx
        rw [List.mem_cons] at hx
        rcases hx with hx | hx
        · subst hx; simp
        · have := hp.1 x hx
          simp; omega
      rw [hnil]
      rfl
    | succ s =>
      have hrest : rest.get? s = some i := by simpa using h
      have hi : i ∈ rest := List.get?_mem hrest
      have hai : a < i := hp.1 i hi
      rw [List.filter_cons, if_pos (by simpa using hai)]
      rw [List.length_cons]
      rw [ih hp.2 s i hrest]

theorem sorted_mem_get?_filter_length : ∀ (l : List Nat),
    l.Pairwise (· < ·) → ∀ i ∈ l,
    l.get? ((l.filter (fun x => decide (x < i))).length) = some i := by
  intro l
  induction l with
  | nil => intro _ i h; simp at h
  | cons a rest ih =>
    intro hp i hi
    rw [List.pairwise_cons] at hp
    rw [List.mem_cons] at hi
    rcases hi with hi | hi
    · subst hi
      have hnil : (i :: rest).filter (fun x => decide (x < i)) = [] := by
        rw [List.filter_eq_nil_iff]
        intro x hx
        rw [List.mem_cons] at hx
        rcases hx with hx | hx
        · subst hx; simp
        · have := hp.1 x hx
          simp; omega
      rw [hnil]
      rfl
    · have hai : a < i := hp.1 i hi
      rw [List.filter_cons, if_pos (by simpa using hai), List.length_cons]
      simpa using ih hp.2 i hi

theorem filter_range_lt (p : Nat → Bool) (i : Nat) : ∀ (n : Nat), i ≤ n →
    (List.range n).filter (fun j => decide (j < i) && p j)
      = (List.range i).filter p := by
  intro n
  induction n with
  | zero =>
    intro h
    have hi0 : i = 0 := by omega
    subst hi0; rfl
  | succ n ihn =>
    intro h
    by_cases hin : i = n + 1
    · subst hin
      refine List.filter_congr ?_
      intro j hj
      rw [List.mem_range] at hj
      simp [hj]
    · have h2 : i ≤ n := by omega
      rw [List.range_succ, List.filter_append, ihn h2]
      have hnil : [n].filter (fun j => decide (j < i) && p j) = [] := by
        simp [Nat.not_lt.mpr h2]
      rw [hnil, List.append_nil]

theorem filter_length_slotSpec (neos : List String) (nb i : Nat)
    (hi : i < neos.length) :
    ((((List.range neos.length).filter
        (fun j => bandCode nb (neos.getD j "") j
          == bandCode nb (neos.getD i "") i)).filter
      (fun x => decide (x < i))).length) = slotSpec neos nb i := by
  rw [List.filter_filter, filter_range_lt _ i neos.length (by omega),
    slotSpec]
  rfl

theorem bandedFlat_mem_unique (neos : List String) (nb i b s : Nat)
    (h : (i, b, s) ∈ bandedFlat neos nb) :
    i < neos.length ∧ b = bandCode nb (neos.getD i "") i
      ∧ s = slotSpec neos nb i := by
  rw [bandedFlat, mem_foldl_append] at h
  rcases h with h | ⟨g, hg, hx⟩
  · simp at h
  rw [List.mem_map] at hx
  obtain ⟨q, hq, he⟩ := hx
  have hq2 : q.2 = i := congrArg (fun t => t.1) he
  have hg1 : g.1 = b := congrArg (fun t => t.2.1) he
  have hq1 : q.1 = s := congrArg (fun t => t.2.2) he
  have henum : g.2.get? q.1 = some q.2 := by
    rw [List.get?_eq_getElem?]
    exact (List.mk_mem_enum_iff_getElem?).mp (by simpa using hq)
  have hL : g.2 = (List.range neos.length).filter
      (fun j => bandCode nb (neos.getD j "") j == g.1) := by
    have hmemg : (g.1, g.2) ∈ buildGroups neos nb := by simpa using hg
    rw [← groupOf_of_mem (buildGroups neos nb)
      (nodup_keys_buildGroups nb neos) g.1 g.2 hmemg,
      groupOf_buildGroups]
  have hiL : i ∈ g.2 := by
    rw [← hq2]
    exact List.get?_mem henum
  have hmemfilter := hiL
  rw [hL, List.mem_filter, List.mem_range] at hmemfilter
  have hin : i < neos.length := hmemfilter.1
  have hband : bandCode nb (neos.getD i "") i = g.1 := by
    have := hmemfilter.2
    rwa [beq_iff_eq] at this
  have hsorted : g.2.Pairwise (· < ·) := by
    rw [hL]
    exact (List.pairwise_lt_range _).filter _
  have hs : q.1 = (g.2.filter (fun x => decide (x < i))).length := by
    refine sorted_get?_eq_filter_length g.2 hsorted q.1 i ?_
    rw [henum, hq2]
  refine ⟨hin, by rw [← hg1, ← hband], ?_⟩
  rw [← hq1, hs, hL, ← hband]
  exact filter_length_slotSpec neos nb i hin

theorem bandedFlat_mem_exists (neos : List String) (nb i : Nat)
    (hi : i < neos.length) :
    (i, bandCode nb (neos.getD i "") i, slotSpec neos nb i)
      ∈ bandedFlat neos nb := by
  set band := bandCode nb (neos.getD i "") i with hband
  set L := (List.range neos.length).filter
    (fun j => bandCode nb (neos.getD j "") j == band) with hLdef
  have hL : groupOf (buildGroups neos nb) band = L :=
    groupOf_buildGroups neos nb band
  have hiL : i ∈ L := by
    rw [hLdef, List.mem_filter]
    refine ⟨List.mem_range.mpr hi, ?_⟩
    rw [beq_iff_eq]
  have hsorted : L.Pairwise (· < ·) := by
    rw [hLdef]
    exact (List.pairwise_lt_range _).filter _
  have hpos : L.get? ((L.filter (fun x => decide (x < i))).length)
      = some i := sorted_mem_get?_filter_length L hsorted i hiL
  have hslot : (L.filter (fun x => decide (x < i))).length
      = slotSpec neos nb i := by
    rw [hLdef]
    exact filter_length_slotSpec neos nb i hi
  have hmem : (band, L) ∈ buildGroups neos nb := by
    have hne : groupOf (buildGroups neos nb) band ≠ [] := by
      rw [hL]; exact List.ne_nil_of_mem hiL
    have h := mem_of_groupOf_ne (buildGroups neos nb) band hne
    rwa [hL] at h
  rw [bandedFlat, mem_foldl_append]
  refine Or.inr ⟨(band, L), hmem, ?_⟩
  rw [List.mem_map]
  refine ⟨(slotSpec neos nb i, i), ?_, rfl⟩
  apply (List.mk_mem_enum_iff_getElem?).mpr
  rw [← List.get?_eq_getElem?, ← hslot]
  exact hpos

theorem bandCode_irrel (nb : Nat) (name : String) (hnm : name ≠ "")
    (i i' : Nat) : bandCode nb name i = bandCode nb name i' := by
  simp [bandCode, hnm]

/-- C1 (amended): each NEO at source index `i` receives exactly one
`(band, slot)` pair: the band is `hashStr(name or String(i)) mod
numBands` — for a named object a pure function of `(name, numBands)`,
unchanged by inserting, removing or reordering other objects in any
other list — while the slot is the object's arrival-order position
within its band (the count of earlier objects with the same band), so
the slot does change when other objects sharing the band precede it.
Repeated assignment of the same object list always yields these same
pairs. -/
theorem C1_band_slot (neos : List String) (nb i : Nat)
    (h : i < neos.length) :
    (i, bandCode nb (neos.getD i "") i, slotSpec neos nb i)
      ∈ bandedFlat neos nb ∧
    (∀ b s : Nat, (i, b, s) ∈ bandedFlat neos nb →
      b = bandCode nb (neos.getD i "") i ∧ s = slotSpec neos nb i) ∧
    (∀ (neos' : List String) (i' : Nat), i' < neos'.length →
      neos'.getD i' "" = neos.getD i "" → neos.getD i "" ≠ "" →
      ∀ b' s' : Nat, (i', b', s') ∈ bandedFlat neos' nb →
        b' = bandCode nb (neos.getD i "") i) := by
  refine ⟨bandedFlat_mem_exists neos nb i h, fun b s hm => ?_, ?_⟩
  · obtain ⟨_, hb, hs⟩ := bandedFlat_mem_unique neos nb i b s hm
    exact ⟨hb, hs⟩
  · intro neos' i' hi' hname hne b' s' hm
    obtain ⟨_, hb, _⟩ := bandedFlat_mem_unique neos' nb i' b' s' hm
    rw [hb, hname]
    exact bandCode_irrel nb (neos.getD i "") hne i' i

/-- Witness for C1 on the two-object list `["A", "B"]` with 32 bands at
index 0. -/
theorem C1_band_slot_witness :
    0 < (["A", "B"] : List String).length ∧
    ((0, bandCode 32 ((["A", "B"] : List String).getD 0 "") 0,
        slotSpec ["A", "B"] 32 0) ∈ bandedFlat ["A", "B"] 32 ∧
      (∀ b s : Nat, (0, b, s) ∈ bandedFlat ["A", "B"] 32 →
        b = bandCode 32 ((["A", "B"] : List String).getD 0 "") 0
          ∧ s = slotSpec ["A", "B"] 32 0) ∧
      (∀ (neos' : List String) (i' : Nat), i' < neos'.length →
        neos'.getD i' "" = (["A", "B"] : List String).getD 0 "" →
        (["A", "B"] : List String).getD 0 "" ≠ "" →
        ∀ b' s' : Nat, (i', b', s') ∈ bandedFlat neos' 32 →
          b' = bandCode 32 ((["A", "B"] : List String).getD 0 "") 0)) :=
  ⟨by decide, C1_band_slot ["A", "B"] 32 0 (by decide)⟩

/-- Counterexample to C1 as stated: with one band, the object named
"A" has slot 0 in the list `["A"]`, but inserting the differently-named
object "B" in front of it moves "A" (now at source index 1) to slot 1:
its `(band, slot)` pair is not invariant under insertion of other
objects with different names. -/
theorem C1_counterexample :
    (0, 0, 0) ∈ bandedFlat ["A"] 1 ∧
    (1, 0, 1) ∈ bandedFlat ["B", "A"] 1 ∧
    ¬ (1, 0, 0) ∈ bandedFlat ["B", "A"] 1 ∧
    ("A" : String) ≠ "B" := by
  refine ⟨by decide, by decide, by decide, by decide⟩

end NeoSon
